import Mathlib

/-!
Verification of the Markdown link engine in `Utils` (methods
`extractMarkdownLinks` and `replaceMarkdownLinksWithOrder`).

Documents are modelled as `List Char`.  Each JavaScript regular expression of
the source is translated into an explicit matcher over `List Char` following
ECMAScript matching semantics (leftmost match, alternation tried left to
right, greedy and lazy quantifiers with backtracking where it can matter).
A generic scanner reproduces the semantics of a global `exec` loop /
`matchAll`: the leftmost match at or after the previous match end is taken
and scanning resumes at its end.
-/

/-- ECMAScript `\s` character class (WhiteSpace plus LineTerminator). -/
def jsWhitespace (c : Char) : Bool :=
  c = ' ' || c = '\t' || c = '\n' || c.val = 0x0B || c.val = 0x0C || c = '\r' ||
  c.val = 0x00A0 || c.val = 0x1680 || (0x2000 ≤ c.val && c.val ≤ 0x200A) ||
  c.val = 0x2028 || c.val = 0x2029 || c.val = 0x202F || c.val = 0x205F ||
  c.val = 0x3000 || c.val = 0xFEFF

/-- ECMAScript LineTerminator set, used by multiline `^` and `$`. -/
def isLineTerm (c : Char) : Bool :=
  c = '\n' || c = '\r' || c.val = 0x2028 || c.val = 0x2029

/-- The class `[a-zA-Z]`. -/
def asciiAlpha (c : Char) : Bool :=
  ('a' ≤ c && c ≤ 'z') || ('A' ≤ c && c ≤ 'Z')

/-- The class `[0-9]`. -/
def asciiDigit (c : Char) : Bool :=
  '0' ≤ c && c ≤ '9'

/-- The class `[a-zA-Z0-9+.-]` (URL scheme tail characters). -/
def schemeChar (c : Char) : Bool :=
  asciiAlpha c || asciiDigit c || c = '+' || c = '.' || c = '-'

/-- Multiline `^`: start of input, or right after a line terminator.
`prev` is the character immediately before the current position. -/
def atLineStart (prev : Option Char) : Bool :=
  match prev with
  | none => true
  | some c => isLineTerm c

/-- Length of the maximal prefix of `s` whose characters satisfy `p`
(the length consumed by a greedy `p*` run). -/
def runLen (p : Char → Bool) (s : List Char) : Nat :=
  (s.takeWhile p).length

/-- JavaScript `String.prototype.trim` (strips `\s` on both sides). -/
def jsTrim (s : List Char) : List Char :=
  ((s.dropWhile jsWhitespace).reverse.dropWhile jsWhitespace).reverse

/-- JavaScript `toLowerCase`, modelled on the ASCII range (the documents in
scope are ASCII; non-ASCII characters are kept unchanged). -/
def jsToLower (c : Char) : Char :=
  if 'A' ≤ c ∧ c ≤ 'Z' then Char.ofNat (c.toNat + 32) else c

/-- `toLowerCase` over a whole string. -/
def listToLower (s : List Char) : List Char :=
  s.map jsToLower

/-- The link record produced by the extractor
(`type MarkdownLink = \x7b title: string; url: string \x7d`). -/
structure MarkdownLink where
  title : List Char
  url : List Char
deriving DecidableEq

/-- A half-open character span `[start, stop)`; models the rewriter's
`Range`/`Hit` records (`start`/`end` fields, `end` renamed to `stop`). -/
structure Range where
  start : Nat
  stop : Nat
deriving DecidableEq

/-- Generic global-regex scan.  `m prev s` attempts a match at the position
whose remaining input is `s` and whose preceding character is `prev`
(for lookbehind and multiline `^`); it returns the match length and a
payload.  The scan takes the leftmost match, then resumes immediately
after it, exactly like a JavaScript `g`-flag `exec` loop or `matchAll`.
`fuel` only bounds the recursion; with `fuel = s.length` it is never
exhausted.  None of the translated patterns can match the empty string;
the `max len 1` step mirrors `matchAll`'s advance on that impossible case. -/
def scanAllAux {α : Type} (m : Option Char → List Char → Option (Nat × α)) :
    Nat → Option Char → Nat → List Char → List (Nat × Nat × α)
  | 0, _, _, _ => []
  | _ + 1, _, _, [] => []
  | fuel + 1, prev, i, c :: rest =>
    match m prev (c :: rest) with
    | none => scanAllAux m fuel (some c) (i + 1) rest
    | some (len, a) =>
      let step := max len 1
      (i, i + len, a) ::
        scanAllAux m fuel (some ((c :: rest).getD (step - 1) c)) (i + step)
          ((c :: rest).drop step)

/-- All matches of `m` over `s`, with their start and end offsets. -/
def scanAll {α : Type} (m : Option Char → List Char → Option (Nat × α))
    (s : List Char) : List (Nat × Nat × α) :=
  scanAllAux m s.length none 0 s

/-!
Extractor matchers (`Utils.extractMarkdownLinks`).
-/

/-- Core of `\[([^\]]*)\]\(([^)]+)\)`: a bracketed text (no `]`), then a
parenthesised target (at least one character, no `)`).  All character
classes exclude exactly the delimiter that must follow, so the greedy runs
are deterministic.  Returns (length, text, inside). -/
def linkCore : List Char → Option (Nat × List Char × List Char)
  | [] => none
  | c0 :: s1 =>
    if c0 = '[' then
      let tLen := runLen (fun c => c != ']') s1
      let r1 := s1.drop tLen
      if r1.take 2 = [']', '('] then
        let s2 := r1.drop 2
        let iLen := runLen (fun c => c != ')') s2
        if iLen ≠ 0 ∧ (s2.drop iLen).take 1 = [')'] then
          some (1 + tLen + 2 + iLen + 1, (s1.take tLen, s2.take iLen))
        else none
      else none
    else none

/-- Matcher for the extractor's inline-link regex
`(?<!!)\[(?<text>[^\]]*)\]\((?<inside>[^)]+)\)|!\[(?<img>[^\]]*)\]\([^)]+\)`:
the non-image alternative (guarded by the lookbehind on the previous
character) is tried first, then the image alternative.  The `Bool` of the
payload is `true` when the image alternative matched (the `img` group).
`inlineImageAlt` is the image alternative `!\[(?<img>[^\]]*)\]\([^)]+\)`. -/
def inlineImageAlt : List Char → Option (Nat × Bool × List Char × List Char)
  | [] => none
  | c0 :: rest =>
    if c0 = '!' then
      (linkCore rest).map (fun r => (r.1 + 1, true, r.2.1, r.2.2))
    else none

def inlineLinkMatch (prev : Option Char) (s : List Char) :
    Option (Nat × Bool × List Char × List Char) :=
  match (if prev ≠ some '!' then linkCore s else none) with
  | some (len, text, inside) => some (len, false, text, inside)
  | none => inlineImageAlt s

/-- Matcher for the extractor's autolink regex
`<([a-zA-Z][a-zA-Z0-9+.-]*:[^>\s]+)>`: a scheme, a colon, then at least one
character that is neither `>` nor whitespace, all wrapped in angle
brackets.  Payload: the captured inner URL. -/
def autolinkMatchX : Option Char → List Char → Option (Nat × List Char)
  | _, [] => none
  | _, [_] => none
  | _, c0 :: c :: s1 =>
    if c0 = '<' then
      (if asciiAlpha c then
          let schLen := runLen schemeChar s1
          let r1 := s1.drop schLen
          if r1.take 1 = [':'] then
            let s2 := r1.drop 1
            let oLen := runLen (fun ch => ch != '>' && !jsWhitespace ch) s2
            if oLen ≠ 0 ∧ (s2.drop oLen).take 1 = ['>'] then
              some (1 + 1 + schLen + 1 + oLen + 1,
                c :: s1.take schLen ++ ':' :: s2.take oLen)
            else none
          else none
        else none)
    else none

/-- Core of `\[([^\]]+)\]\[([^\]\r\n]*)\]`: non-empty bracketed text, then a
second bracket pair whose id contains no `]`, CR or LF.
Returns (length, text, id). -/
def refCore : List Char → Option (Nat × List Char × List Char)
  | [] => none
  | c0 :: s1 =>
    if c0 = '[' then
      let tLen := runLen (fun c => c != ']') s1
      let r1 := s1.drop tLen
      if tLen ≠ 0 ∧ r1.take 2 = [']', '['] then
        let s2 := r1.drop 2
        let idLen := runLen (fun c => c != ']' && c != '\r' && c != '\n') s2
        if (s2.drop idLen).take 1 = [']'] then
          some (1 + tLen + 2 + idLen + 1, (s1.take tLen, s2.take idLen))
        else none
      else none
    else none

/-- Matcher for the extractor's reference-link regex
`(?<!!)\[(?<text>[^\]]+)\]\[(?<id>[^\]\r\n]*)\]|!\[(?<img2>[^\]]+)\]\[[^\]\r\n]*\]`.
The `Bool` of the payload is `true` when the image alternative matched.
`refImageAlt` is the image alternative `!\[(?<img2>[^\]]+)\]\[[^\]\r\n]*\]`. -/
def refImageAlt : List Char → Option (Nat × Bool × List Char × List Char)
  | [] => none
  | c0 :: rest =>
    if c0 = '!' then
      (refCore rest).map (fun r => (r.1 + 1, true, r.2.1, r.2.2))
    else none

def refLinkMatch (prev : Option Char) (s : List Char) :
    Option (Nat × Bool × List Char × List Char) :=
  match (if prev ≠ some '!' then refCore s else none) with
  | some (len, text, id) => some (len, false, text, id)
  | none => refImageAlt s

/-!
The reference-definition regex
`^\s{0,3}\[([^\]\r\n]+)\]:\s*<?([^\s>]+)>?(?:\s+["'(].*?["')])?\s*$` (flags
`gim`; the `i` flag has no effect, the pattern holds no literal letters).
Real backtracking arises in `<?` (the url class admits `<`), in the lazy
`.*?` of the optional title group, and in `\s*$`; it is modelled explicitly
below.
-/

/-- Index of the last line terminator in `s`, if any (the position the
greedy `\s*` of `\s*$` backtracks to). -/
def lastLineTerm : List Char → Option Nat
  | [] => none
  | c :: rest =>
    match lastLineTerm rest with
    | some k => some (k + 1)
    | none => if isLineTerm c then some 0 else none

/-- Matcher for `\s*$` in multiline mode: greedily consume whitespace; `$`
holds at end of input or just before a line terminator, so on failure the
run backtracks to the last line terminator it consumed.  Returns the number
of characters consumed. -/
def wsDollar (t : List Char) : Option Nat :=
  let w := runLen jsWhitespace t
  if t.drop w = [] then some w else lastLineTerm (t.take w)

/-- Matcher for the lazy `.*?["')]` followed by `\s*$`: scan forward to the
nearest closing quote/parenthesis, try the tail there, and on failure extend
the lazy run past it; `.` never crosses a line terminator.  Returns
characters consumed (closer and tail included). -/
def titleLazy : List Char → Option Nat
  | [] => none
  | c :: rest =>
    if c = '"' ∨ c = '\x27' ∨ c = ')' then
      match wsDollar rest with
      | some r => some (1 + r)
      | none =>
        match titleLazy rest with
        | some r => some (1 + r)
        | none => none
    else if isLineTerm c then none
    else
      match titleLazy rest with
      | some r => some (1 + r)
      | none => none

/-- Matcher for the title group `\s+["'(].*?["')]` followed by `\s*$`: the
greedy `\s+` is deterministic because the opener that must follow is not
whitespace. -/
def titleGroup (t : List Char) : Option Nat :=
  let w := runLen jsWhitespace t
  if w = 0 then none
  else
    match t.drop w with
    | [] => none
    | d :: u =>
      if d = '"' ∨ d = '\x27' ∨ d = '(' then
        match titleLazy u with
        | some r => some (w + 1 + r)
        | none => none
      else none

/-- The tail `(?:\s+["'(].*?["')])?\s*$`: the greedy optional group is tried
with all its internal backtracking first, then dropped. -/
def titleTail (t : List Char) : Option Nat :=
  match titleGroup t with
  | some r => some r
  | none => wsDollar t

/-- One alternative of `<?([^\s>]+)>?` plus the tail: `pre` characters were
consumed before the url run (1 if a `<` was taken).  The greedy url run and
the greedy `>?` are deterministic (shortening either leaves a character that
can satisfy neither the title's `\s+` nor `\s*$`).
Returns (characters consumed, url capture). -/
def urlAttempt (pre : Nat) (rest : List Char) : Option (Nat × List Char) :=
  let uLen := runLen (fun c => !jsWhitespace c && c != '>') rest
  if uLen = 0 then none
  else
    let afterUrl := rest.drop uLen
    let gtLen := if afterUrl.take 1 = ['>'] then 1 else 0
    match titleTail (afterUrl.drop gtLen) with
    | some r => some (pre + uLen + gtLen + r, rest.take uLen)
    | none => none

/-- `<?([^\s>]+)>?` plus tail, with the `<?` backtracking: if a leading `<`
is present the greedy option consumes it first; on failure the url run is
retried including the `<` itself (which the url class admits). -/
def urlPart (s3 : List Char) : Option (Nat × List Char) :=
  match s3 with
  | '<' :: rest =>
    match urlAttempt 1 rest with
    | some res => some res
    | none => urlAttempt 0 s3
  | _ => urlAttempt 0 s3

/-- Full matcher for the reference-definition regex (multiline `^` via
`prev`; `\s{0,3}` is deterministic because the `[` that must follow is not
whitespace, so only the full whitespace run, when at most 3 long, can
precede it).  Payload: (raw id capture, url capture). -/
def refDefMatch (prev : Option Char) (s : List Char) :
    Option (Nat × List Char × List Char) :=
  if atLineStart prev then
    let k := runLen jsWhitespace s
    if k ≤ 3 then
      match s.drop k with
      | [] => none
      | c0 :: s1 =>
        if c0 = '[' then
          let idLen := runLen (fun c => c != ']' && c != '\r' && c != '\n') s1
          if idLen ≠ 0 ∧ (s1.drop idLen).take 2 = [']', ':'] then
            let s2 := (s1.drop idLen).drop 2
            let wsLen := runLen jsWhitespace s2
            match urlPart (s2.drop wsLen) with
            | some (consumed, url) =>
              some (k + 1 + idLen + 2 + wsLen + consumed, (s1.take idLen, url))
            | none => none
          else none
        else none
    else none
  else none

/-- The reference `Map`: only `get` is used by the source, so the map is
modelled as the list of `set` calls in order, `get` returning the value of
the last `set` with the given key. -/
def refsSet (m : List (List Char × List Char)) (id url : List Char) :
    List (List Char × List Char) :=
  m ++ [(id, url)]

/-- `references.get(id)`: value of the last `set` for `id`, if any. -/
def refsGet (m : List (List Char × List Char)) (id : List Char) :
    Option (List Char) :=
  m.foldl (fun r p => if p.1 = id then some p.2 else r) none

/-- Pass 1 of the extractor: harvest `[id]: url` definitions,
`id` trimmed and lowercased, `url` trimmed; later definitions overwrite. -/
def harvestRefs (md : List Char) : List (List Char × List Char) :=
  (scanAll refDefMatch md).foldl
    (fun refs x => refsSet refs (listToLower (jsTrim x.2.2.1)) (jsTrim x.2.2.2)) []

/-- The shared `push` helper: `if (!url) return; results.push(...)`.
An empty URL is dropped regardless of the construct class. -/
def push (results : List MarkdownLink) (title url : List Char) :
    List MarkdownLink :=
  if url = [] then results else results ++ [⟨title, url⟩]

/-- URL parsing of an inline link target (`inside` is already trimmed):
if it starts with `<`, take the text before the first `>` when one exists
at a positive index, otherwise strip all angle brackets; else take the
first whitespace-delimited token (`split(/\s+/)[0]`, which on a trimmed
string is the leading non-whitespace run). -/
def parseInsideUrl (inside : List Char) : List Char :=
  if inside.take 1 = ['<'] then
    match inside.findIdx? (fun c => c == '>') with
    | some gt =>
      if 0 < gt then jsTrim ((inside.take gt).drop 1)
      else jsTrim (inside.filter (fun c => !(c == '<' || c == '>')))
    | none => jsTrim (inside.filter (fun c => !(c == '<' || c == '>')))
  else
    jsTrim (inside.takeWhile (fun c => !jsWhitespace c))

/-- Loop body of the extractor's inline pass.  The match payload is
(start, end, (img?, text, inside)); image matches are skipped.  The
source's `text || ""` is the identity on strings (only `""` is falsy). -/
def inlineStep (res : List MarkdownLink)
    (x : Nat × Nat × Bool × List Char × List Char) : List MarkdownLink :=
  if x.2.2.1 then res
  else push res (jsTrim x.2.2.2.1) (parseInsideUrl (jsTrim x.2.2.2.2))

/-- Loop body of the extractor's autolink pass: no title, URL trimmed. -/
def autolinkStep (res : List MarkdownLink) (x : Nat × Nat × List Char) :
    List MarkdownLink :=
  push res [] (jsTrim x.2.2)

/-- Loop body of the extractor's reference pass: resolve the id (or, when
empty, the text — the `rawId || text` shortcut) case-insensitively; an
unresolved id gives the empty URL (`?? ""`), which `push` then drops. -/
def refLinkStep (references : List (List Char × List Char))
    (res : List MarkdownLink) (x : Nat × Nat × Bool × List Char × List Char) :
    List MarkdownLink :=
  if x.2.2.1 then res
  else
    let text := jsTrim x.2.2.2.1
    let rawId := jsTrim x.2.2.2.2
    let id := listToLower (if rawId = [] then text else rawId)
    push res text ((refsGet references id).getD [])

/-- `Utils.extractMarkdownLinks`: one `results` list threaded through the
three scanning passes (inline, autolink, reference), in that order. -/
def extractMarkdownLinks (md : List Char) : List MarkdownLink :=
  let references := harvestRefs md
  let results1 := (scanAll inlineLinkMatch md).foldl inlineStep []
  let results2 := (scanAll autolinkMatchX md).foldl autolinkStep results1
  (scanAll refLinkMatch md).foldl (refLinkStep references) results2

/-- The inline pass in isolation. -/
def inlineLinkPass (md : List Char) : List MarkdownLink :=
  (scanAll inlineLinkMatch md).foldl inlineStep []

/-- The autolink pass in isolation. -/
def autolinkPass (md : List Char) : List MarkdownLink :=
  (scanAll autolinkMatchX md).foldl autolinkStep []

/-- The reference pass in isolation. -/
def refLinkPass (md : List Char) : List MarkdownLink :=
  (scanAll refLinkMatch md).foldl (refLinkStep (harvestRefs md)) []

/-!
Rewriter (`Utils.replaceMarkdownLinksWithOrder`).
-/

/-- `intersects`: `!(a.end <= b.start || b.end <= a.start)` — two spans
intersect unless one ends at or before the other's start. -/
def intersects (a b : Range) : Bool :=
  !(a.stop ≤ b.start || b.stop ≤ a.start)

/-- `isInsideExcluded`: some excluded range intersects `[start, stop)`. -/
def isInsideExcluded (start stop : Nat) (excluded : List Range) : Bool :=
  excluded.any (fun r => intersects ⟨start, stop⟩ r)

/-- Lazy search of `[\s\S]*?\n\1` for fence character `f`: consumed length
up to and including the closing `\n` + three fence characters, taking the
earliest occurrence (the `[\s\S]*?` is lazy and matches anything). -/
def closeFence (f : Char) : List Char → Option Nat
  | [] => none
  | c :: rest =>
    if c = '\n' ∧ rest.take 3 = [f, f, f] then some 4
    else
      match closeFence f rest with
      | some r => some (r + 1)
      | none => none

/-- Matcher for the fenced-block regex `(```|~~~)[^\n]*\n[\s\S]*?\n\1`:
three identical fence characters, the rest of that line, a newline, then
the lazily-found closing newline + identical fence.  A block whose opening
fence is never closed produces no match at all. -/
def fencedMatch (_prev : Option Char) (s : List Char) : Option (Nat × Unit) :=
  match s with
  | a :: b :: c :: s1 =>
    if (a = '\x60' ∧ b = '\x60' ∧ c = '\x60') ∨ (a = '~' ∧ b = '~' ∧ c = '~') then
      let infoLen := runLen (fun ch => ch != '\n') s1
      if (s1.drop infoLen).take 1 = ['\n'] then
        match closeFence a ((s1.drop infoLen).drop 1) with
        | some r => some (3 + infoLen + 1 + r, ())
        | none => none
      else none
    else none
  | _ => none

/-- Matcher for the inline-code regex `` `[^`\n]*` ``: a backtick, a run
without backticks or newlines, a closing backtick. -/
def inlineCodeMatch (_prev : Option Char) (s : List Char) : Option (Nat × Unit) :=
  match s with
  | [] => none
  | c0 :: s1 =>
    if c0 = '\x60' then
      let clen := runLen (fun c => c != '\x60' && c != '\n') s1
      if (s1.drop clen).take 1 = ['\x60'] then some (1 + clen + 1, ()) else none
    else none

/-- Matcher for the definition-line regex `^\s{0,3}\[[^\]\r\n]+\]:[^\n]*$`
(flags `gm`): as in `refDefMatch` the leading `\s{0,3}` is deterministic;
the trailing `[^\n]*$` always succeeds greedily (the run stops at `\n` or
end of input, where multiline `$` holds). -/
def defLineMatch (prev : Option Char) (s : List Char) : Option (Nat × Unit) :=
  if atLineStart prev then
    let k := runLen jsWhitespace s
    if k ≤ 3 then
      match s.drop k with
      | [] => none
      | c0 :: s1 =>
        if c0 = '[' then
          let idLen := runLen (fun c => c != ']' && c != '\r' && c != '\n') s1
          if idLen ≠ 0 ∧ (s1.drop idLen).take 2 = [']', ':'] then
            let rLen := runLen (fun c => c != '\n') ((s1.drop idLen).drop 2)
            some (k + 1 + idLen + 2 + rLen, ())
          else none
        else none
    else none
  else none

/-- The rewriter's excluded ranges: fenced blocks, then inline code spans
(each added only when it does not intersect a range already collected),
then definition lines (added unconditionally). -/
def excludedSpans (md : List Char) : List Range :=
  let ex1 := (scanAll fencedMatch md).map (fun x => Range.mk x.1 x.2.1)
  let ex2 := (scanAll inlineCodeMatch md).foldl
    (fun acc x =>
      if isInsideExcluded x.1 x.2.1 acc then acc else acc ++ [Range.mk x.1 x.2.1])
    ex1
  ex2 ++ (scanAll defLineMatch md).map (fun x => Range.mk x.1 x.2.1)

/-- Matcher for the rewriter's inline-link regex `!?\[[^\]]*\]\([^)]+\)`.
The optional `!` is deterministic: dropping a present `!` leaves the `\[`
to fail on the `!` itself.  Payload: whether the match starts with `!`. -/
def rwInlineMatch : Option Char → List Char → Option (Nat × Bool)
  | _, [] => none
  | _, c0 :: rest =>
    if c0 = '!' then (linkCore rest).map (fun r => (r.1 + 1, true))
    else (linkCore (c0 :: rest)).map (fun r => (r.1, false))

/-- Matcher for the rewriter's reference-link regex `!?\[[^\]]+\]\[[^\]\r\n]*\]`. -/
def rwRefMatch : Option Char → List Char → Option (Nat × Bool)
  | _, [] => none
  | _, c0 :: rest =>
    if c0 = '!' then (refCore rest).map (fun r => (r.1 + 1, true))
    else (refCore (c0 :: rest)).map (fun r => (r.1, false))

/-- Matcher for the rewriter's autolink regex `<([^>\s]+)>`.
Payload: the inner text. -/
def rwAutolinkMatch : Option Char → List Char → Option (Nat × List Char)
  | _, [] => none
  | _, c0 :: s1 =>
    if c0 = '<' then
      let iLen := runLen (fun c => c != '>' && !jsWhitespace c) s1
      if iLen ≠ 0 ∧ (s1.drop iLen).take 1 = ['>'] then
        some (1 + iLen + 1, s1.take iLen)
      else none
    else none

/-- Test of `/^[a-zA-Z][a-zA-Z0-9+.-]*:[^\s]+$/` (no `m` flag, so `$` is end
of input): a letter, scheme characters, a colon, then a non-empty
whitespace-free rest. -/
def looksLikeUrl (s : List Char) : Bool :=
  match s with
  | [] => false
  | c :: rest =>
    asciiAlpha c &&
      (let r := rest.drop (runLen schemeChar rest)
       r.take 1 = [':'] && !(r.drop 1).isEmpty &&
         (r.drop 1).all (fun ch => !jsWhitespace ch))

/-- The class `[^@\s]`. -/
def emailChar (c : Char) : Bool :=
  c != '@' && !jsWhitespace c

/-- Test of `/^[^@\s]+@[^@\s]+\.[^@\s]+$/`: with backtracking, the anchored
pattern matches exactly when the string factors as
`a ++ [at-sign] ++ x ++ [dot] ++ y` with `a`, `x`, `y` non-empty and free of
`@` and whitespace; the search below ranges over the `@` and `.` positions. -/
def looksLikeEmail (s : List Char) : Bool :=
  (List.range s.length).any (fun i =>
    (List.range s.length).any (fun j =>
      decide (0 < i) && decide (i + 1 < j) && decide (j + 1 < s.length) &&
      s.getD i ' ' == '@' && s.getD j ' ' == '.' &&
      (s.take i).all emailChar && ((s.take j).drop (i + 1)).all emailChar &&
      (s.drop (j + 1)).all emailChar))

/-- Keep-condition of the rewriter's inline pass: not an image
(`m[0].startsWith('!')` makes the loop `continue`) and not intersecting an
excluded range. -/
def rwInlineKeep (excluded : List Range) (x : Nat × Nat × Bool) : Bool :=
  !x.2.2 && !isInsideExcluded x.1 x.2.1 excluded

/-- Keep-condition of the rewriter's reference pass. -/
def rwRefKeep (excluded : List Range) (x : Nat × Nat × Bool) : Bool :=
  !x.2.2 && !isInsideExcluded x.1 x.2.1 excluded

/-- Keep-condition of the rewriter's autolink pass: the inner text passes
the URL test or the email test, and the span is not excluded. -/
def rwAutoKeep (excluded : List Range) (x : Nat × Nat × List Char) : Bool :=
  (looksLikeUrl x.2.2 || looksLikeEmail x.2.2) &&
    !isInsideExcluded x.1 x.2.1 excluded

/-- The rewriter's `hits` list: one array threaded through the three
collection passes (inline, reference, autolink), in source order. -/
def rwHits (md : List Char) : List Range :=
  let excluded := excludedSpans md
  let h1 := (scanAll rwInlineMatch md).foldl
    (fun acc x => if rwInlineKeep excluded x then acc ++ [Range.mk x.1 x.2.1] else acc) []
  let h2 := (scanAll rwRefMatch md).foldl
    (fun acc x => if rwRefKeep excluded x then acc ++ [Range.mk x.1 x.2.1] else acc) h1
  (scanAll rwAutolinkMatch md).foldl
    (fun acc x => if rwAutoKeep excluded x then acc ++ [Range.mk x.1 x.2.1] else acc) h2

/-- Stable insertion of a hit into a start-sorted list: `x` goes before the
first element whose start is not smaller (JavaScript's sort is stable and
the comparator `a.start - b.start` only compares starts). -/
def insertHit (x : Range) : List Range → List Range
  | [] => [x]
  | y :: ys => if y.start < x.start then y :: insertHit x ys else x :: y :: ys

/-- Stable sort by start offset (`hits.sort((a, b) => a.start - b.start)`). -/
def sortHits : List Range → List Range
  | [] => []
  | h :: hs => insertHit h (sortHits hs)

/-- The rewriter's hits after sorting by appearance. -/
def sortedHits (md : List Char) : List Range :=
  sortHits (rwHits md)

/-- The marker `[i]` inserted for the i-th kept hit (1-based). -/
def marker (i : Nat) : List Char :=
  '[' :: ((Nat.repr i).data ++ [']'])

/-- The replacement loop: for each hit append the gap
`markdown.slice(cursor, hit.start)` (empty when `cursor ≥ hit.start`, as
with JavaScript `slice`) and the marker, move the cursor to `hit.end`;
finally append `markdown.slice(cursor)`. -/
def applyHits (md : List Char) (cursor i : Nat) : List Range → List Char
  | [] => md.drop cursor
  | h :: hs => ((md.take h.start).drop cursor) ++ marker i ++ applyHits md h.stop (i + 1) hs

/-- `Utils.replaceMarkdownLinksWithOrder`. -/
def replaceMarkdownLinksWithOrder (md : List Char) : List Char :=
  applyHits md 0 1 (sortedHits md)

/-- Sum of the lengths of a list of spans. -/
def spanLenSum : List Range → Nat
  | [] => 0
  | h :: hs => (h.stop - h.start) + spanLenSum hs

/-- Sum of the lengths of the markers `[i], [i+1], ..., [i+n-1]`. -/
def markerLenSumFrom (i : Nat) : Nat → Nat
  | 0 => 0
  | n + 1 => (marker i).length + markerLenSumFrom (i + 1) n

/-- Well-formed hit chain starting at `cursor` in a document of length `n`:
the spans are in order, pairwise disjoint, and inside the document. -/
def okFrom (cursor n : Nat) : List Range → Prop
  | [] => True
  | h :: hs => cursor ≤ h.start ∧ h.start ≤ h.stop ∧ h.stop ≤ n ∧ okFrom h.stop n hs

/-- The image-syntax document `![alt](url)`. -/
def imageDoc (alt url : List Char) : List Char :=
  '!' :: '[' :: (alt ++ (']' :: ('(' :: (url ++ [')']))))

/-!
General lemmas.
-/

/-- A fold whose step only appends to its accumulator factors through `++`. -/
theorem foldl_shift {α β : Type} (f : List β → α → List β)
    (hf : ∀ a x, f a x = a ++ f [] x) :
    ∀ (l : List α) (a : List β), l.foldl f a = a ++ l.foldl f [] := by
  intro l
  induction l with
  | nil => intro a; simp
  | cons x l ih =>
    intro a
    simp only [List.foldl_cons]
    rw [ih (f a x), ih (f [] x), hf a x, List.append_assoc]

theorem push_shift (a : List MarkdownLink) (t u : List Char) :
    push a t u = a ++ push [] t u := by
  unfold push
  split
  · simp
  · simp

theorem inlineStep_shift (a : List MarkdownLink)
    (x : Nat × Nat × Bool × List Char × List Char) :
    inlineStep a x = a ++ inlineStep [] x := by
  cases hb : x.2.2.1 <;> simp only [inlineStep, hb, if_true, if_false,
    Bool.false_eq_true, ite_false, ite_true]
  · exact push_shift _ _ _
  · simp

theorem autolinkStep_shift (a : List MarkdownLink) (x : Nat × Nat × List Char) :
    autolinkStep a x = a ++ autolinkStep [] x := by
  unfold autolinkStep
  exact push_shift _ _ _

theorem refLinkStep_shift (references : List (List Char × List Char))
    (a : List MarkdownLink) (x : Nat × Nat × Bool × List Char × List Char) :
    refLinkStep references a x = a ++ refLinkStep references [] x := by
  cases hb : x.2.2.1 <;> simp only [refLinkStep, hb, Bool.false_eq_true,
    ite_false, ite_true]
  · exact push_shift _ _ _
  · simp

/-- C5: the extractor's output is the concatenation, in pass order, of the
inline pass, the autolink pass and the reference pass (each in document
order); it is not merged by offset across construct classes, as the second
conjunct shows on a document whose autolink precedes its inline link. -/
theorem extract_eq_pass_concat :
    (∀ md : List Char, extractMarkdownLinks md =
      inlineLinkPass md ++ autolinkPass md ++ refLinkPass md) ∧
    extractMarkdownLinks (("<a:b> [x](u:v)").data) =
      [⟨("x").data, ("u:v").data⟩, ⟨[], ("a:b").data⟩] := by
  constructor
  · intro md
    simp only [extractMarkdownLinks, inlineLinkPass, autolinkPass, refLinkPass]
    rw [foldl_shift autolinkStep autolinkStep_shift,
      foldl_shift (refLinkStep (harvestRefs md)) (refLinkStep_shift (harvestRefs md)),
      List.append_assoc]
  · decide

/-- Rewriting a document in which no hit survives filtering returns the
document unchanged. -/
theorem replace_eq_of_no_hits (md : List Char) (h : rwHits md = []) :
    replaceMarkdownLinksWithOrder md = md := by
  unfold replaceMarkdownLinksWithOrder sortedHits
  rw [h]
  rfl

/-- C8: both functions are total (they are plain Lean functions into plain
result types — the embedding returns no error case, as no operation of the
source can raise); the extractor on empty input yields the empty list, and
the rewriter on any document without kept hits returns it unchanged. -/
theorem total_and_identity_without_hits :
    extractMarkdownLinks [] = [] ∧
      ∀ md : List Char, rwHits md = [] → replaceMarkdownLinksWithOrder md = md := by
  exact ⟨rfl, fun md h => replace_eq_of_no_hits md h⟩

/-- Witness for C8 at a concrete hit-free document. -/
theorem total_and_identity_witness :
    rwHits (("plain text, no links.").data) = [] ∧
      replaceMarkdownLinksWithOrder (("plain text, no links.").data) =
        ("plain text, no links.").data :=
  ⟨by decide, total_and_identity_without_hits.2 _ (by decide)⟩

/-- C1 counterexample: on `[text][id]` with no definition for `id`, the
extractor emits nothing at all — the unresolved reference-style link is
dropped, not emitted with an empty URL. -/
theorem unresolvedRef_not_emitted_cex :
    extractMarkdownLinks (("[text][id]").data) = [] := by decide

/-- C1 amended: a reference-style occurrence whose id does not resolve gets
the empty URL (`?? ""`), which the shared `push` helper then drops — the
occurrence is not emitted, exactly like an inline link with an empty URL. -/
theorem unresolvedRef_dropped (references : List (List Char × List Char))
    (res : List MarkdownLink) (st en : Nat) (text rid : List Char)
    (h : refsGet references
      (listToLower (if jsTrim rid = [] then jsTrim text else jsTrim rid)) = none) :
    refLinkStep references res (st, en, (false, text, rid)) = res := by
  simp only [refLinkStep, Bool.false_eq_true, ite_false, h, Option.getD_none, push, ite_true]

/-- Witness for the amended C1. -/
theorem unresolvedRef_dropped_witness :
    refsGet [] (listToLower (if jsTrim (("id").data) = [] then jsTrim (("text").data)
        else jsTrim (("id").data))) = none ∧
      refLinkStep [] [] (0, 10, (false, ("text").data, ("id").data)) = [] :=
  ⟨by decide, unresolvedRef_dropped [] [] 0 10 (("text").data) (("id").data) (by decide)⟩

/-- C2 counterexample: on `[a](<x:y>)` the inline hit `[0,10)` and the
autolink hit `[4,9)` overlap, both are kept, and the claimed length
equation fails (the output is 7 characters, the equation predicts 1). -/
theorem rewriter_length_equation_cex :
    ¬ ((replaceMarkdownLinksWithOrder (("[a](<x:y>)").data)).length +
        spanLenSum (sortedHits (("[a](<x:y>)").data)) =
      (("[a](<x:y>)").data).length +
        markerLenSumFrom 1 (sortedHits (("[a](<x:y>)").data)).length) := by decide

/-- C3 counterexample: after an unterminated opening fence the link `[a](u)`
is still replaced — the fenced-block regex needs a closing fence, so no
exclusion span is produced for the remainder of the document. -/
theorem unterminated_fence_cex :
    replaceMarkdownLinksWithOrder (("\x60\x60\x60\n[a](u)").data) =
      ("\x60\x60\x60\n[1]").data := by decide

/-- C4 counterexample: two adjacent links rewrite to the adjacent markers
`[1][2]`, which a second run matches as a reference-style link `[text][id]`
and rewrites again — the output does not stabilise after one pass. -/
theorem rewriter_not_idempotent_cex :
    replaceMarkdownLinksWithOrder
        (replaceMarkdownLinksWithOrder (("[a](u)[b](v)").data)) ≠
      replaceMarkdownLinksWithOrder (("[a](u)[b](v)").data) := by decide

/-- C4 amended: the rewriter's output is a fixed point whenever the second
scan finds no kept hit in it; a lone marker is not re-matched (no target
follows it), but adjacent markers are, so stability holds only under this
condition. -/
theorem rewriter_stable_of_no_second_hits (md : List Char)
    (h : rwHits (replaceMarkdownLinksWithOrder md) = []) :
    replaceMarkdownLinksWithOrder (replaceMarkdownLinksWithOrder md) =
      replaceMarkdownLinksWithOrder md :=
  replace_eq_of_no_hits _ h

/-- Witness for the amended C4: a single-link document stabilises. -/
theorem rewriter_stable_witness :
    rwHits (replaceMarkdownLinksWithOrder (("See [Docs](https://a.test/x) now.").data)) = [] ∧
      replaceMarkdownLinksWithOrder
          (replaceMarkdownLinksWithOrder (("See [Docs](https://a.test/x) now.").data)) =
        replaceMarkdownLinksWithOrder (("See [Docs](https://a.test/x) now.").data) :=
  ⟨by decide, rewriter_stable_of_no_second_hits _ (by decide)⟩

/-- C7 counterexample: on the image `![a](<x:y>)` the extractor's autolink
pass still emits `<x:y>` from inside the image target, and the rewriter
replaces it, so the document is neither occurrence-free nor left
byte-identical. -/
theorem image_autolink_leak_cex :
    extractMarkdownLinks (("![a](<x:y>)").data) = [⟨[], ("x:y").data⟩] ∧
      replaceMarkdownLinksWithOrder (("![a](<x:y>)").data) =
        ("![a]([1])").data := by decide

/-- C10: the rewriter accepts the email autolink `<a@b.cd>` as a hit (one
marker inserted) while the extractor's autolink pass, which requires a URL
scheme, emits nothing — strictly more markers than extracted pairs, so
marker indices and extractor positions desynchronise. -/
theorem email_autolink_desync :
    extractMarkdownLinks (("<a@b.cd>").data) = [] ∧
      sortedHits (("<a@b.cd>").data) = [⟨0, 8⟩] ∧
      replaceMarkdownLinksWithOrder (("<a@b.cd>").data) = ("[1]").data ∧
      (extractMarkdownLinks (("<a@b.cd>").data)).length <
        (sortedHits (("<a@b.cd>").data)).length := by decide

/-- Anything `push` adds has a non-empty URL. -/
theorem push_mem {res : List MarkdownLink} {t u : List Char} {p : MarkdownLink}
    (h : p ∈ push res t u) : p ∈ res ∨ p.url ≠ [] := by
  by_cases hu : u = []
  · rw [push, if_pos hu] at h
    exact Or.inl h
  · rw [push, if_neg hu] at h
    rcases List.mem_append.mp h with h1 | h1
    · exact Or.inl h1
    · right
      rw [List.mem_singleton.mp h1]
      exact hu

theorem inlineStep_mem {res : List MarkdownLink}
    {x : Nat × Nat × Bool × List Char × List Char} {p : MarkdownLink}
    (h : p ∈ inlineStep res x) : p ∈ res ∨ p.url ≠ [] := by
  unfold inlineStep at h
  split at h
  · exact Or.inl h
  · exact push_mem h

theorem autolinkStep_mem {res : List MarkdownLink} {x : Nat × Nat × List Char}
    {p : MarkdownLink} (h : p ∈ autolinkStep res x) : p ∈ res ∨ p.url ≠ [] :=
  push_mem h

theorem refLinkStep_mem {references : List (List Char × List Char)}
    {res : List MarkdownLink} {x : Nat × Nat × Bool × List Char × List Char}
    {p : MarkdownLink} (h : p ∈ refLinkStep references res x) :
    p ∈ res ∨ p.url ≠ [] := by
  unfold refLinkStep at h
  split at h
  · exact Or.inl h
  · exact push_mem h

/-- Folding a step that only adds non-empty-URL links preserves the
property. -/
theorem foldl_url_ne {α : Type} (step : List MarkdownLink → α → List MarkdownLink)
    (hstep : ∀ res x p, p ∈ step res x → p ∈ res ∨ p.url ≠ []) :
    ∀ (l : List α) (init : List MarkdownLink) (p : MarkdownLink),
      p ∈ l.foldl step init → p ∈ init ∨ p.url ≠ [] := by
  intro l
  induction l with
  | nil => exact fun init p h => Or.inl h
  | cons x l ih =>
    intro init p h
    rcases ih (step init x) p h with h1 | h1
    · exact hstep init x p h1
    · exact Or.inr h1

/-- C9: every pair returned by the extractor has a non-empty URL — the
shared push helper discards any occurrence whose URL is empty, in every
construct class. -/
theorem extracted_urls_nonempty (md : List Char) (p : MarkdownLink)
    (h : p ∈ extractMarkdownLinks md) : p.url ≠ [] := by
  simp only [extractMarkdownLinks] at h
  rcases foldl_url_ne _ (fun res x q hq => refLinkStep_mem hq) _ _ _ h with h1 | h1
  · rcases foldl_url_ne _ (fun res x q hq => autolinkStep_mem hq) _ _ _ h1 with h2 | h2
    · rcases foldl_url_ne _ (fun res x q hq => inlineStep_mem hq) _ _ _ h2 with h3 | h3
      · exact absurd h3 (List.not_mem_nil p)
      · exact h3
    · exact h2
  · exact h1

/-- Witness for C9 on a concrete document. -/
theorem extracted_urls_nonempty_witness :
    (⟨[], ("a:b").data⟩ : MarkdownLink) ∈ extractMarkdownLinks (("<a:b>").data) ∧
      (⟨[], ("a:b").data⟩ : MarkdownLink).url ≠ [] :=
  ⟨by decide,
    extracted_urls_nonempty (("<a:b>").data) ⟨[], ("a:b").data⟩ (by decide)⟩

/-- Membership in a filtered push-fold comes from the initial list or from a
scanned element that passed the keep condition. -/
theorem foldl_keep_mem {α : Type} (f : α → Bool) (g : α → Range) :
    ∀ (l : List α) (init : List Range) (x : Range),
      x ∈ l.foldl (fun acc y => if f y then acc ++ [g y] else acc) init →
      x ∈ init ∨ ∃ y ∈ l, f y = true ∧ x = g y := by
  intro l
  induction l with
  | nil => exact fun init x h => Or.inl h
  | cons z l ih =>
    intro init x h
    simp only [List.foldl_cons] at h
    rcases ih _ x h with h1 | h1
    · by_cases hz : f z = true
      · rw [if_pos hz] at h1
        rcases List.mem_append.mp h1 with h2 | h2
        · exact Or.inl h2
        · exact Or.inr ⟨z, List.mem_cons_self z l, hz, List.mem_singleton.mp h2⟩
      · rw [if_neg hz] at h1
        exact Or.inl h1
    · rcases h1 with ⟨y, hy, hfy, hxy⟩
      exact Or.inr ⟨y, List.mem_cons_of_mem z hy, hfy, hxy⟩

/-- Every hit collected by the rewriter passed the exclusion filter. -/
theorem rwHits_not_excluded (md : List Char) (x : Range) (h : x ∈ rwHits md) :
    isInsideExcluded x.start x.stop (excludedSpans md) = false := by
  simp only [rwHits] at h
  rcases foldl_keep_mem (rwAutoKeep (excludedSpans md)) _ _ _ _ h with h1 | h1
  · rcases foldl_keep_mem (rwRefKeep (excludedSpans md)) _ _ _ _ h1 with h2 | h2
    · rcases foldl_keep_mem (rwInlineKeep (excludedSpans md)) _ _ _ _ h2 with h3 | h3
      · exact absurd h3 (List.not_mem_nil x)
      · rcases h3 with ⟨y, _, hk, rfl⟩
        simp only [rwInlineKeep, Bool.and_eq_true, Bool.not_eq_true'] at hk
        exact hk.2
    · rcases h2 with ⟨y, _, hk, rfl⟩
      simp only [rwRefKeep, Bool.and_eq_true, Bool.not_eq_true'] at hk
      exact hk.2
  · rcases h1 with ⟨y, _, hk, rfl⟩
    simp only [rwAutoKeep, Bool.and_eq_true, Bool.not_eq_true'] at hk
    exact hk.2

theorem insertHit_subset {x y : Range} :
    ∀ {l : List Range}, y ∈ insertHit x l → y = x ∨ y ∈ l := by
  intro l
  induction l with
  | nil =>
    intro h
    simp only [insertHit, List.mem_singleton] at h
    exact Or.inl h
  | cons z l ih =>
    intro h
    simp only [insertHit] at h
    split at h
    · rcases List.mem_cons.mp h with h1 | h1
      · exact Or.inr (h1 ▸ List.mem_cons_self z l)
      · rcases ih h1 with h2 | h2
        · exact Or.inl h2
        · exact Or.inr (List.mem_cons_of_mem z h2)
    · rcases List.mem_cons.mp h with h1 | h1
      · exact Or.inl h1
      · exact Or.inr h1

theorem sortHits_subset {y : Range} :
    ∀ {l : List Range}, y ∈ sortHits l → y ∈ l := by
  intro l
  induction l with
  | nil =>
    intro h
    simpa only [sortHits] using h
  | cons z l ih =>
    intro h
    simp only [sortHits] at h
    rcases insertHit_subset h with h1 | h1
    · exact h1 ▸ List.mem_cons_self z l
    · exact List.mem_cons_of_mem z (ih h1)

/-- C6: every hit kept by the rewriter after filtering is disjoint from
every exclusion span, under the source's own intersection test. -/
theorem kept_hits_disjoint_from_exclusions (md : List Char) (h ex : Range)
    (hh : h ∈ sortedHits md) (hex : ex ∈ excludedSpans md) :
    intersects h ex = false := by
  have h1 := rwHits_not_excluded md h (sortHits_subset hh)
  unfold isInsideExcluded at h1
  rw [List.any_eq_false] at h1
  have h2 := h1 ex hex
  simpa using h2

/-- Witness for C6: a document with one exclusion span and one kept hit. -/
theorem kept_hits_disjoint_witness :
    (⟨9, 15⟩ : Range) ∈ sortedHits (("\x60[x](y)\x60 [a](u)").data) ∧
      (⟨0, 8⟩ : Range) ∈ excludedSpans (("\x60[x](y)\x60 [a](u)").data) ∧
      intersects ⟨9, 15⟩ ⟨0, 8⟩ = false :=
  ⟨by decide, by decide,
    kept_hits_disjoint_from_exclusions (("\x60[x](y)\x60 [a](u)").data) ⟨9, 15⟩ ⟨0, 8⟩
      (by decide) (by decide)⟩

/-!
Length bounds of the rewriter's matchers (a match never runs past the end
of the remaining input), used for the length equation.
-/

theorem runLen_le (p : Char → Bool) : ∀ s : List Char, runLen p s ≤ s.length := by
  intro s
  induction s with
  | nil => simp [runLen]
  | cons c rest ih =>
    by_cases h : p c
    · simp only [runLen, List.takeWhile_cons, h, if_true, List.length_cons]
      exact Nat.succ_le_succ ih
    · simp only [runLen, List.takeWhile_cons, h, if_false, List.length_cons]
      simp [runLen] at ih ⊢

theorem take_len_le {α : Type} {l : List α} {n : Nat} {a : List α}
    (h : l.take n = a) (hn : a.length = n) : n ≤ l.length := by
  rcases Nat.le_total n l.length with h1 | h1
  · exact h1
  · have h2 := congrArg List.length h
    rw [List.length_take, Nat.min_eq_right h1, hn] at h2
    exact Nat.le_of_eq h2.symm

theorem linkCore_len_le {s : List Char} {r : Nat × List Char × List Char}
    (h : linkCore s = some r) : r.1 ≤ s.length := by
  cases s with
  | nil => simp [linkCore] at h
  | cons c0 s1 =>
    simp only [linkCore] at h
    split at h
    · split at h
      · split at h
        · rename_i h0 h2 h3
          have hr : r.1 = 1 + runLen (fun c => c != ']') s1 + 2 +
              runLen (fun c => c != ')') ((s1.drop (runLen (fun c => c != ']') s1)).drop 2) + 1 := by
            have := (Option.some.injEq _ _).mp h
            rw [← this]
          have htake2 := take_len_le h2 rfl
          have htake1 := take_len_le h3.2 rfl
          simp only [List.length_drop] at htake2 htake1
          have hrl1 := runLen_le (fun c => c != ']') s1
          simp only [List.length_cons, hr]
          omega
        · simp at h
      · simp at h
    · simp at h

theorem refCore_len_le {s : List Char} {r : Nat × List Char × List Char}
    (h : refCore s = some r) : r.1 ≤ s.length := by
  cases s with
  | nil => simp [refCore] at h
  | cons c0 s1 =>
    simp only [refCore] at h
    split at h
    · split at h
      · split at h
        · rename_i h0 h2 h3
          have hr : r.1 = 1 + runLen (fun c => c != ']') s1 + 2 +
              runLen (fun c => c != ']' && c != '\r' && c != '\n')
                ((s1.drop (runLen (fun c => c != ']') s1)).drop 2) + 1 := by
            have := (Option.some.injEq _ _).mp h
            rw [← this]
          have htake2 := take_len_le h2.2 rfl
          have htake1 := take_len_le h3 rfl
          simp only [List.length_drop] at htake2 htake1
          have hrl1 := runLen_le (fun c => c != ']') s1
          simp only [List.length_cons, hr]
          omega
        · simp at h
      · simp at h
    · simp at h

theorem rwInlineMatch_len_le {p : Option Char} {s : List Char} {r : Nat × Bool}
    (h : rwInlineMatch p s = some r) : r.1 ≤ s.length := by
  cases s with
  | nil => simp [rwInlineMatch] at h
  | cons c0 rest =>
    simp only [rwInlineMatch] at h
    split at h
    · rcases Option.map_eq_some'.mp h with ⟨v, hv, he⟩
      have := linkCore_len_le hv
      rw [← he]
      simp only [List.length_cons]
      omega
    · rcases Option.map_eq_some'.mp h with ⟨v, hv, he⟩
      have := linkCore_len_le hv
      rw [← he]
      exact this

theorem rwRefMatch_len_le {p : Option Char} {s : List Char} {r : Nat × Bool}
    (h : rwRefMatch p s = some r) : r.1 ≤ s.length := by
  cases s with
  | nil => simp [rwRefMatch] at h
  | cons c0 rest =>
    simp only [rwRefMatch] at h
    split at h
    · rcases Option.map_eq_some'.mp h with ⟨v, hv, he⟩
      have := refCore_len_le hv
      rw [← he]
      simp only [List.length_cons]
      omega
    · rcases Option.map_eq_some'.mp h with ⟨v, hv, he⟩
      have := refCore_len_le hv
      rw [← he]
      exact this

theorem rwAutolinkMatch_len_le {p : Option Char} {s : List Char}
    {r : Nat × List Char} (h : rwAutolinkMatch p s = some r) : r.1 ≤ s.length := by
  cases s with
  | nil => simp [rwAutolinkMatch] at h
  | cons c0 s1 =>
    simp only [rwAutolinkMatch] at h
    split at h
    · split at h
      · rename_i h0 h1
        have hr : r.1 = 1 + runLen (fun c => c != '>' && !jsWhitespace c) s1 + 1 := by
          have := (Option.some.injEq _ _).mp h
          rw [← this]
        have htake1 := take_len_le h1.2 rfl
        simp only [List.length_drop] at htake1
        have hrl := runLen_le (fun c => c != '>' && !jsWhitespace c) s1
        simp only [List.length_cons, hr]
        omega
      · simp at h
    · simp at h

/-- Offsets produced by the scanner stay inside the document: an element
`(st, en, a)` of a scan from offset `i` over `s` satisfies
`i ≤ st ≤ en ≤ i + s.length`, provided the matcher never claims more than
the remaining input. -/
theorem scanAllAux_mem_le {α : Type} (m : Option Char → List Char → Option (Nat × α))
    (hm : ∀ p s r, m p s = some r → r.1 ≤ s.length) :
    ∀ (fuel : Nat) (prev : Option Char) (i : Nat) (s : List Char)
      (x : Nat × Nat × α), x ∈ scanAllAux m fuel prev i s →
      i ≤ x.1 ∧ x.1 ≤ x.2.1 ∧ x.2.1 ≤ i + s.length := by
  intro fuel
  induction fuel with
  | zero =>
    intro prev i s x h
    simp [scanAllAux] at h
  | succ fuel ih =>
    intro prev i s x h
    cases s with
    | nil => simp [scanAllAux] at h
    | cons c rest =>
      rw [scanAllAux] at h
      cases hm2 : m prev (c :: rest) with
      | none =>
        rw [hm2] at h
        have := ih _ _ _ x h
        simp only [List.length_cons]
        omega
      | some r =>
        obtain ⟨len, a⟩ := r
        rw [hm2] at h
        simp only at h
        rcases List.mem_cons.mp h with h1 | h1
        · subst h1
          have hle := hm _ _ _ hm2
          exact ⟨Nat.le_refl i, Nat.le_add_right i len, Nat.add_le_add_left hle i⟩
        · have hle := hm _ _ _ hm2
          have hx := ih _ _ _ x h1
          have hlen : ((c :: rest).drop (max len 1)).length =
              (c :: rest).length - max len 1 := List.length_drop _ _
          have hst1 : len ≤ max len 1 := Nat.le_max_left _ _
          have hst2 : max len 1 ≤ (c :: rest).length :=
            Nat.max_le.mpr ⟨hle, Nat.succ_le_succ (Nat.zero_le _)⟩
          simp only [List.length_cons] at hlen hst2 ⊢
          omega

theorem scanAll_mem_le {α : Type} (m : Option Char → List Char → Option (Nat × α))
    (hm : ∀ p s r, m p s = some r → r.1 ≤ s.length)
    (md : List Char) (x : Nat × Nat × α) (h : x ∈ scanAll m md) :
    x.1 ≤ x.2.1 ∧ x.2.1 ≤ md.length := by
  have := scanAllAux_mem_le m hm md.length none 0 md x h
  omega

/-- Every hit collected by the rewriter is a well-formed span inside the
document. -/
theorem rwHits_bounds (md : List Char) (x : Range) (h : x ∈ rwHits md) :
    x.start ≤ x.stop ∧ x.stop ≤ md.length := by
  simp only [rwHits] at h
  rcases foldl_keep_mem (rwAutoKeep (excludedSpans md)) _ _ _ _ h with h1 | h1
  · rcases foldl_keep_mem (rwRefKeep (excludedSpans md)) _ _ _ _ h1 with h2 | h2
    · rcases foldl_keep_mem (rwInlineKeep (excludedSpans md)) _ _ _ _ h2 with h3 | h3
      · exact absurd h3 (List.not_mem_nil x)
      · rcases h3 with ⟨y, hy, _, rfl⟩
        exact scanAll_mem_le rwInlineMatch (fun p s r hr => rwInlineMatch_len_le hr) md y hy
    · rcases h2 with ⟨y, hy, _, rfl⟩
      exact scanAll_mem_le rwRefMatch (fun p s r hr => rwRefMatch_len_le hr) md y hy
  · rcases h1 with ⟨y, hy, _, rfl⟩
    exact scanAll_mem_le rwAutolinkMatch (fun p s r hr => rwAutolinkMatch_len_le hr) md y hy

/-- A chain of disjoint, in-bounds spans is a well-formed hit chain. -/
theorem okFrom_of_chain (n : Nat) :
    ∀ (l : List Range) (c : Nat),
      (∀ h ∈ l, h.start ≤ h.stop ∧ h.stop ≤ n) →
      List.Chain' (fun a b => a.stop ≤ b.start) l →
      (∀ h0, l.head? = some h0 → c ≤ h0.start) →
      okFrom c n l := by
  intro l
  induction l with
  | nil => intro c _ _ _; trivial
  | cons h hs ih =>
    intro c hb hc hhead
    have h1 := hb h (List.mem_cons_self _ _)
    rcases List.chain'_cons'.mp hc with ⟨hrel, htail⟩
    refine ⟨hhead h rfl, h1.1, h1.2, ?_⟩
    exact ih h.stop (fun g hg => hb g (List.mem_cons_of_mem _ hg)) htail
      (fun h0 hh0 => hrel h0 hh0)

/-- The length bookkeeping of the replacement loop on a well-formed hit
chain: output length plus replaced span lengths equals remaining input
length plus marker lengths. -/
theorem applyHits_length (md : List Char) :
    ∀ (hs : List Range) (cursor i : Nat), cursor ≤ md.length →
      okFrom cursor md.length hs →
      (applyHits md cursor i hs).length + spanLenSum hs =
        (md.length - cursor) + markerLenSumFrom i hs.length := by
  intro hs
  induction hs with
  | nil =>
    intro cursor i hc _
    simp [applyHits, spanLenSum, markerLenSumFrom, List.length_drop]
  | cons h hs ih =>
    intro cursor i hc hok
    obtain ⟨h1, h2, h3, h4⟩ := hok
    have ihh := ih h.stop (i + 1) h3 h4
    have hg : ((md.take h.start).drop cursor).length = h.start - cursor := by
      rw [List.length_drop, List.length_take, Nat.min_eq_left (le_trans h2 h3)]
    simp only [applyHits, spanLenSum, markerLenSumFrom, List.length_append,
      List.length_cons, hg]
    omega

/-- C2 amended: whenever the kept hits are pairwise disjoint (each span in
sorted order ends at or before the next begins), the rewriter's output
length equals input length minus total kept span length plus total marker
length; stated additively to avoid truncated subtraction. -/
theorem rewriter_length_equation_of_disjoint (md : List Char)
    (hchain : List.Chain' (fun a b => a.stop ≤ b.start) (sortedHits md)) :
    (replaceMarkdownLinksWithOrder md).length + spanLenSum (sortedHits md) =
      md.length + markerLenSumFrom 1 (sortedHits md).length := by
  have hb : ∀ h ∈ sortedHits md, h.start ≤ h.stop ∧ h.stop ≤ md.length :=
    fun h hh => rwHits_bounds md h (sortHits_subset hh)
  have hok := okFrom_of_chain md.length (sortedHits md) 0 hb hchain
    (fun h0 _ => Nat.zero_le _)
  have := applyHits_length md (sortedHits md) 0 1 (Nat.zero_le _) hok
  simpa [replaceMarkdownLinksWithOrder] using this

/-- Witness for the amended C2 on a document with two disjoint hits. -/
theorem rewriter_length_equation_witness :
    List.Chain' (fun a b => a.stop ≤ b.start) (sortedHits (("[a](u) <x:y>").data)) ∧
      (replaceMarkdownLinksWithOrder (("[a](u) <x:y>").data)).length +
          spanLenSum (sortedHits (("[a](u) <x:y>").data)) =
        (("[a](u) <x:y>").data).length +
          markerLenSumFrom 1 (sortedHits (("[a](u) <x:y>").data)).length := by
  have hs : sortedHits (("[a](u) <x:y>").data) = [⟨0, 6⟩, ⟨7, 12⟩] := by decide
  have hchain : List.Chain' (fun a b => a.stop ≤ b.start)
      (sortedHits (("[a](u) <x:y>").data)) := by
    rw [hs]
    exact List.chain'_pair.mpr (by decide)
  exact ⟨hchain, rewriter_length_equation_of_disjoint (("[a](u) <x:y>").data) hchain⟩

/-- A helper: a singleton `take 1` exposes the head of the list. -/
theorem take_one_cons {α : Type} {l : List α} {x : α} (h : l.take 1 = [x]) :
    l = x :: l.drop 1 := by
  cases l with
  | nil => simp at h
  | cons c r =>
    simp only [List.take_succ_cons, List.take_zero, List.cons.injEq, and_true] at h
    rw [h]
    rfl

/-- The close-fence search succeeds only by actually finding `\n` followed
by the three fence characters: the consumed text ends with them. -/
theorem closeFence_ends (f : Char) :
    ∀ (body : List Char) (j : Nat), closeFence f body = some j →
      ∃ pre, body.take j = pre ++ '\n' :: [f, f, f] := by
  intro body
  induction body with
  | nil => intro j h; simp [closeFence] at h
  | cons c rest ih =>
    intro j h
    simp only [closeFence] at h
    split at h
    · rename_i hcond
      obtain ⟨hc, htake⟩ := hcond
      have hj : j = 4 := by
        have := Option.some.inj h
        omega
      subst hj
      refine ⟨[], ?_⟩
      rw [show ((c :: rest).take 4) = c :: rest.take 3 from rfl, hc, htake]
      rfl
    · cases hcf : closeFence f rest with
      | none => rw [hcf] at h; simp at h
      | some r =>
        rw [hcf] at h
        simp only [Option.some.injEq] at h
        obtain ⟨pre, hpre⟩ := ih r hcf
        subst h
        refine ⟨c :: pre, ?_⟩
        rw [List.take_succ_cons, hpre]
        rfl

/-- C3 amended: a fenced-block match requires a matching closing fence —
whenever the matcher succeeds, the matched text starts with three identical
fence characters and ends with a newline followed by the same three fence
characters.  Consequently a document whose opening fence is never closed
contributes no exclusion span at all (and its trailing content is still
rewritten, as the counterexample shows). -/
theorem fencedMatch_requires_close (prev : Option Char) (s : List Char)
    (len : Nat) (u : Unit) (h : fencedMatch prev s = some (len, u)) :
    ∃ f pre, (f = '\x60' ∨ f = '~') ∧ s.take 3 = [f, f, f] ∧
      s.take len = pre ++ '\n' :: [f, f, f] := by
  cases s with
  | nil => simp [fencedMatch] at h
  | cons a s1a =>
    cases s1a with
    | nil => simp [fencedMatch] at h
    | cons b s1b =>
      cases s1b with
      | nil => simp [fencedMatch] at h
      | cons c s1 =>
        simp only [fencedMatch] at h
        split at h
        · rename_i hfence
          split at h
          · rename_i hnl
            cases hcf : closeFence a
                ((s1.drop (runLen (fun ch => ch != '\n') s1)).drop 1) with
            | none => rw [hcf] at h; simp at h
            | some r =>
              rw [hcf] at h
              cases u
              simp only [Option.some.injEq, Prod.mk.injEq, and_true] at h
              obtain ⟨pre, hpre⟩ := closeFence_ends a _ r hcf
              have hb : a = b ∧ a = c := by
                rcases hfence with ⟨ha, hb2, hc2⟩ | ⟨ha, hb2, hc2⟩ <;>
                  exact ⟨ha.trans hb2.symm, ha.trans hc2.symm⟩
              have hf : a = '\x60' ∨ a = '~' := by
                rcases hfence with ⟨ha, _, _⟩ | ⟨ha, _, _⟩
                · exact Or.inl ha
                · exact Or.inr ha
              refine ⟨a, a :: b :: c :: (s1.take (runLen (fun ch => ch != '\n') s1) ++
                '\n' :: pre), hf, ?_, ?_⟩
              · rw [show ((a :: b :: c :: s1).take 3) = [a, b, c] from rfl,
                  ← hb.1, ← hb.2]
              · have hsplit := take_one_cons hnl
                have hlen2 : len =
                    (runLen (fun ch => ch != '\n') s1 + (r + 1)) + 3 := by
                  omega
                rw [hlen2]
                rw [show ((a :: b :: c :: s1).take
                    ((runLen (fun ch => ch != '\n') s1 + (r + 1)) + 3)) =
                  a :: b :: c ::
                    (s1.take (runLen (fun ch => ch != '\n') s1 + (r + 1)))
                  from rfl]
                rw [List.take_add, hsplit, List.take_succ_cons, hpre]
                simp
          · simp at h
        · simp at h

/-- Witness for the amended C3 at a properly closed fence. -/
theorem fencedMatch_requires_close_witness :
    fencedMatch none (("\x60\x60\x60\nx\n\x60\x60\x60").data) = some (9, ()) ∧
      ∃ f pre, (f = '\x60' ∨ f = '~') ∧
        ((("\x60\x60\x60\nx\n\x60\x60\x60").data).take 3 = [f, f, f]) ∧
        ((("\x60\x60\x60\nx\n\x60\x60\x60").data).take 9 = pre ++ '\n' :: [f, f, f]) :=
  ⟨by decide, fencedMatch_requires_close none (("\x60\x60\x60\nx\n\x60\x60\x60").data)
    9 () (by decide)⟩

/-!
Lemmas for the image claim: on a plain image document every pass either
sees only the image match (and skips it) or finds no match at all.
-/

/-- A greedy class run over `l ++ d :: r` stops exactly at `d` when every
character of `l` is in the class and `d` is not. -/
theorem runLen_append_stop (p : Char → Bool) (l : List Char) (d : Char)
    (r : List Char) (hl : ∀ c ∈ l, p c = true) (hd : p d = false) :
    runLen p (l ++ d :: r) = l.length := by
  induction l with
  | nil => simp [runLen, List.takeWhile_cons, hd]
  | cons c t ih =>
    have hc := hl c (List.mem_cons_self _ _)
    simp only [List.cons_append, runLen, List.takeWhile_cons, hc, if_true,
      List.length_cons]
    have := ih (fun x hx => hl x (List.mem_cons_of_mem _ hx))
    simp only [runLen] at this
    rw [this]

theorem scanAllAux_nil_input {α : Type}
    (m : Option Char → List Char → Option (Nat × α)) :
    ∀ (fuel : Nat) (prev : Option Char) (i : Nat),
      scanAllAux m fuel prev i [] = [] := by
  intro fuel
  cases fuel <;> intros <;> rfl

/-- If the matcher fails on every suffix of the document, the scan is
empty. -/
theorem scanAllAux_none {α : Type}
    (m : Option Char → List Char → Option (Nat × α)) (s0 : List Char)
    (hnone : ∀ (p : Option Char) (t : List Char), t <:+ s0 → m p t = none) :
    ∀ (fuel : Nat) (prev : Option Char) (i : Nat) (s : List Char), s <:+ s0 →
      scanAllAux m fuel prev i s = [] := by
  intro fuel
  induction fuel with
  | zero => intro prev i s _; rfl
  | succ fuel ih =>
    intro prev i s hs
    cases s with
    | nil => rfl
    | cons c rest =>
      rw [scanAllAux, hnone prev (c :: rest) hs]
      exact ih (some c) (i + 1) rest ((List.suffix_cons c rest).trans hs)

theorem scanAll_none {α : Type}
    (m : Option Char → List Char → Option (Nat × α)) (s0 : List Char)
    (hnone : ∀ (p : Option Char) (t : List Char), t <:+ s0 → m p t = none) :
    scanAll m s0 = [] :=
  scanAllAux_none m s0 hnone s0.length none 0 s0 (List.suffix_refl s0)

/-- A scan whose first match swallows the entire document yields exactly
that one match. -/
theorem scanAll_single {α : Type}
    (m : Option Char → List Char → Option (Nat × α)) (d : List Char) (a : α)
    (hd : d ≠ []) (hm : m none d = some (d.length, a)) :
    scanAll m d = [(0, d.length, a)] := by
  cases d with
  | nil => exact absurd rfl hd
  | cons c rest =>
    rw [scanAll]
    simp only [List.length_cons]
    rw [scanAllAux]
    rw [show m none (c :: rest) = some (rest.length + 1, a) from by simpa using hm]
    dsimp only
    have hmax : (rest.length + 1) ⊔ 1 = rest.length + 1 :=
      Nat.max_eq_left (Nat.succ_le_succ (Nat.zero_le _))
    rw [hmax]
    have hdrop : List.drop (rest.length + 1) (c :: rest) = [] := by
      simp
    rw [hdrop, scanAllAux_nil_input]
    simp

/-- On the body of an image document, the inline core matches the whole of
it: text `alt`, target `url`. -/
theorem linkCore_image (alt url : List Char)
    (halt2 : ∀ c ∈ alt, (c != ']') = true)
    (hurl0 : url ≠ [])
    (hurl2 : ∀ c ∈ url, (c != ')') = true) :
    linkCore ('[' :: (alt ++ (']' :: ('(' :: (url ++ [')']))))) =
      some (1 + alt.length + 2 + url.length + 1, (alt, url)) := by
  have htLen : runLen (fun c => c != ']') (alt ++ (']' :: ('(' :: (url ++ [')'])))) =
      alt.length :=
    runLen_append_stop (fun c => c != ']') alt ']' ('(' :: (url ++ [')']))
      halt2 (by decide)
  have hiLen : runLen (fun c => c != ')') (url ++ [')']) = url.length :=
    runLen_append_stop (fun c => c != ')') url ')' [] hurl2 (by decide)
  have hlen0 : url.length ≠ 0 := by
    cases url with
    | nil => exact absurd rfl hurl0
    | cons _ _ => simp
  simp only [linkCore, if_true]
  rw [htLen, List.drop_left]
  rw [if_pos (show ((']' :: ('(' :: (url ++ [')']))).take 2) = [']', '('] from rfl)]
  rw [show ((']' :: ('(' :: (url ++ [')']))).drop 2) = url ++ [')'] from rfl]
  rw [hiLen, List.drop_left]
  rw [if_pos (⟨hlen0, rfl⟩ : url.length ≠ 0 ∧ ([')'].take 1 = [')']))]
  rw [List.take_left, List.take_left]

/-- The extractor's inline matcher sees the image document as one image
match covering all of it. -/
theorem inlineLinkMatch_image (alt url : List Char)
    (halt2 : ∀ c ∈ alt, (c != ']') = true)
    (hurl0 : url ≠ [])
    (hurl2 : ∀ c ∈ url, (c != ')') = true) :
    inlineLinkMatch none (imageDoc alt url) =
      some ((1 + alt.length + 2 + url.length + 1) + 1, (true, alt, url)) := by
  rw [show inlineLinkMatch none (imageDoc alt url) =
    (linkCore ('[' :: (alt ++ (']' :: ('(' :: (url ++ [')'])))))).map
      (fun r => (r.1 + 1, true, r.2.1, r.2.2)) from rfl]
  rw [linkCore_image alt url halt2 hurl0 hurl2]
  rfl

/-- The rewriter's inline matcher does the same. -/
theorem rwInlineMatch_image (alt url : List Char)
    (halt2 : ∀ c ∈ alt, (c != ']') = true)
    (hurl0 : url ≠ [])
    (hurl2 : ∀ c ∈ url, (c != ')') = true) :
    ∀ p, rwInlineMatch p (imageDoc alt url) =
      some ((1 + alt.length + 2 + url.length + 1) + 1, true) := by
  intro p
  rw [show rwInlineMatch p (imageDoc alt url) =
    (linkCore ('[' :: (alt ++ (']' :: ('(' :: (url ++ [')'])))))).map
      (fun r => (r.1 + 1, true)) from rfl]
  rw [linkCore_image alt url halt2 hurl0 hurl2]
  rfl

/-- A suffix whose head is not `<` defeats the extractor's autolink
matcher. -/
theorem autolinkMatchX_none {t : List Char}
    (h : ∀ c r, t = c :: r → c ≠ '<') : ∀ p, autolinkMatchX p t = none := by
  intro p
  cases t with
  | nil => rfl
  | cons c r =>
    have hc := h c r rfl
    cases r with
    | nil => rfl
    | cons c2 r2 => simp [autolinkMatchX, hc]

/-- Likewise for the rewriter's autolink matcher. -/
theorem rwAutolinkMatch_none {t : List Char}
    (h : ∀ c r, t = c :: r → c ≠ '<') : ∀ p, rwAutolinkMatch p t = none := by
  intro p
  cases t with
  | nil => rfl
  | cons c r =>
    have := h c r rfl
    simp [rwAutolinkMatch, this]

/-- A suffix whose head is not `[` defeats the reference core. -/
theorem refCore_none_head {t : List Char}
    (h : ∀ c r, t = c :: r → c ≠ '[') : refCore t = none := by
  cases t with
  | nil => rfl
  | cons c r =>
    have := h c r rfl
    simp [refCore, this]

/-- At offset 1 of the image document the reference core fails: after the
bracketed text the next two characters are `](`, not `][`. -/
theorem refCore_bracket_image (alt url : List Char)
    (halt2 : ∀ c ∈ alt, (c != ']') = true) :
    refCore ('[' :: (alt ++ (']' :: ('(' :: (url ++ [')']))))) = none := by
  have htLen : runLen (fun c => c != ']') (alt ++ (']' :: ('(' :: (url ++ [')'])))) =
      alt.length :=
    runLen_append_stop (fun c => c != ']') alt ']' ('(' :: (url ++ [')']))
      halt2 (by decide)
  simp only [refCore, if_true]
  rw [htLen, List.drop_left]
  rw [if_neg (fun hcond => by
    have h2 := hcond.2
    rw [show ((']' :: ('(' :: (url ++ [')']))).take 2) = [']', '('] from rfl] at h2
    exact absurd h2 (by decide))]

/-- The rewriter's reference matcher finds nothing anywhere in the image
document. -/
theorem rwRefMatch_none_image (alt url : List Char)
    (halt2 : ∀ c ∈ alt, (c != ']') = true)
    (haltBr : ∀ c ∈ alt, c ≠ '[') (hurlBr : ∀ c ∈ url, c ≠ '[') :
    ∀ (p : Option Char) (t : List Char), t <:+ imageDoc alt url →
      rwRefMatch p t = none := by
  have hnoBr : '[' ∉ alt ++ (']' :: ('(' :: (url ++ [')']))) := by
    intro hmem
    rcases List.mem_append.mp hmem with h1 | h1
    · exact (haltBr _ h1) rfl
    · simp only [List.mem_cons, List.mem_append, List.mem_singleton] at h1
      rcases h1 with h1 | h1 | h1 | h1
      · exact absurd h1 (by decide)
      · exact absurd h1 (by decide)
      · exact (hurlBr _ h1) rfl
      · exact absurd h1 (by decide)
  have hsuffix : ∀ t2, t2 <:+ (alt ++ (']' :: ('(' :: (url ++ [')'])))) →
      refCore t2 = none := by
    intro t2 ht2
    apply refCore_none_head
    intro c r he hc
    have hcm : c ∈ t2 := by
      rw [he]
      exact List.mem_cons_self c r
    rw [hc] at hcm
    exact hnoBr (ht2.subset hcm)
  intro p t ht
  simp only [imageDoc] at ht
  rcases List.suffix_cons_iff.mp ht with h1 | h1
  · subst h1
    rw [show rwRefMatch p ('!' :: '[' :: (alt ++ (']' :: ('(' :: (url ++ [')']))))) =
      (refCore ('[' :: (alt ++ (']' :: ('(' :: (url ++ [')'])))))).map
        (fun r => (r.1 + 1, true)) from rfl]
    rw [refCore_bracket_image alt url halt2]
    rfl
  · rcases List.suffix_cons_iff.mp h1 with h2 | h2
    · subst h2
      rw [show rwRefMatch p ('[' :: (alt ++ (']' :: ('(' :: (url ++ [')']))))) =
        (refCore ('[' :: (alt ++ (']' :: ('(' :: (url ++ [')'])))))).map
          (fun r => (r.1, false)) from rfl]
      rw [refCore_bracket_image alt url halt2]
      rfl
    · cases t with
      | nil => rfl
      | cons c r =>
        simp only [rwRefMatch]
        by_cases hc : c = '!'
        · rw [if_pos hc, hsuffix r ((List.suffix_cons c r).trans h2)]
          rfl
        · rw [if_neg hc, hsuffix (c :: r) h2]
          rfl

/-- When the lookbehind alternative's core fails, the extractor's
reference matcher reduces to its image alternative. -/
theorem refLinkMatch_eq_imageAlt (p : Option Char) (t : List Char)
    (h : refCore t = none) : refLinkMatch p t = refImageAlt t := by
  simp only [refLinkMatch]
  rw [h, ite_self]

/-- The extractor's reference matcher also finds nothing in the image
document (the lookbehind alternative fails on the missing bracket, the
image alternative fails on the `](` after the text). -/
theorem refLinkMatch_none_image (alt url : List Char)
    (halt2 : ∀ c ∈ alt, (c != ']') = true)
    (haltBr : ∀ c ∈ alt, c ≠ '[') (hurlBr : ∀ c ∈ url, c ≠ '[') :
    ∀ (p : Option Char) (t : List Char), t <:+ imageDoc alt url →
      refLinkMatch p t = none := by
  have hnoBr : '[' ∉ alt ++ (']' :: ('(' :: (url ++ [')']))) := by
    intro hmem
    rcases List.mem_append.mp hmem with h1 | h1
    · exact (haltBr _ h1) rfl
    · simp only [List.mem_cons, List.mem_append, List.mem_singleton] at h1
      rcases h1 with h1 | h1 | h1 | h1
      · exact absurd h1 (by decide)
      · exact absurd h1 (by decide)
      · exact (hurlBr _ h1) rfl
      · exact absurd h1 (by decide)
  have hsuffix : ∀ t2, t2 <:+ (alt ++ (']' :: ('(' :: (url ++ [')'])))) →
      refCore t2 = none := by
    intro t2 ht2
    apply refCore_none_head
    intro c r he hc
    have hcm : c ∈ t2 := by
      rw [he]
      exact List.mem_cons_self c r
    rw [hc] at hcm
    exact hnoBr (ht2.subset hcm)
  intro p t ht
  simp only [imageDoc] at ht
  rcases List.suffix_cons_iff.mp ht with h1 | h1
  · subst h1
    rw [refLinkMatch_eq_imageAlt p
      ('!' :: '[' :: (alt ++ (']' :: ('(' :: (url ++ [')']))))) rfl]
    rw [show refImageAlt ('!' :: '[' :: (alt ++ (']' :: ('(' :: (url ++ [')']))))) =
      (refCore ('[' :: (alt ++ (']' :: ('(' :: (url ++ [')'])))))).map
        (fun r => (r.1 + 1, true, r.2.1, r.2.2)) from rfl]
    rw [refCore_bracket_image alt url halt2]
    rfl
  · rcases List.suffix_cons_iff.mp h1 with h2 | h2
    · subst h2
      rw [refLinkMatch_eq_imageAlt p _ (refCore_bracket_image alt url halt2)]
      rfl
    · cases t with
      | nil =>
        rw [refLinkMatch_eq_imageAlt p [] rfl]
        rfl
      | cons c r =>
        rw [refLinkMatch_eq_imageAlt p _ (hsuffix (c :: r) h2)]
        simp only [refImageAlt]
        by_cases hc : c = '!'
        · rw [if_pos hc, hsuffix r ((List.suffix_cons c r).trans h2)]
          rfl
        · rw [if_neg hc]

/-- Both autolink scans are empty on the image document: it contains no
`<` at all. -/
theorem autolink_none_image (alt url : List Char)
    (haltLt : ∀ c ∈ alt, c ≠ '<') (hurlLt : ∀ c ∈ url, c ≠ '<') :
    scanAll autolinkMatchX (imageDoc alt url) = [] ∧
      scanAll rwAutolinkMatch (imageDoc alt url) = [] := by
  have hnoLt : ∀ c ∈ imageDoc alt url, c ≠ '<' := by
    intro c hc
    simp only [imageDoc, List.mem_cons, List.mem_append, List.mem_singleton] at hc
    rcases hc with h | h | h | h | h | h | h | h
    · subst h; decide
    · subst h; decide
    · exact haltLt _ h
    · subst h; decide
    · subst h; decide
    · exact hurlLt _ h
    · subst h; decide
    · exact absurd h (List.not_mem_nil c)
  have hhead : ∀ (t : List Char), t <:+ imageDoc alt url →
      ∀ c r, t = c :: r → c ≠ '<' := by
    intro t ht c r he
    apply hnoLt
    apply ht.subset
    rw [he]
    exact List.mem_cons_self c r
  exact ⟨scanAll_none _ _ (fun p t ht => autolinkMatchX_none (hhead t ht) p),
    scanAll_none _ _ (fun p t ht => rwAutolinkMatch_none (hhead t ht) p)⟩

/-- C7 amended: a document consisting of image syntax `![alt](url)` whose
alt text and target contain no square brackets and no `<` produces zero
extractor occurrences and is left byte-identical by the rewriter (the image
match itself is detected and skipped by the leading `!`).  Without the `<`
restriction this fails: an autolink inside the image target is still
extracted and replaced, as the counterexample shows. -/
theorem plain_image_inert (alt url : List Char)
    (halt : ∀ c ∈ alt, c ≠ ']' ∧ c ≠ '[' ∧ c ≠ '<')
    (hurl0 : url ≠ [])
    (hurl : ∀ c ∈ url, c ≠ ')' ∧ c ≠ '[' ∧ c ≠ '<') :
    extractMarkdownLinks (imageDoc alt url) = [] ∧
      replaceMarkdownLinksWithOrder (imageDoc alt url) = imageDoc alt url := by
  have halt2 : ∀ c ∈ alt, (c != ']') = true := fun c hc => by
    simpa using (halt c hc).1
  have hurl2 : ∀ c ∈ url, (c != ')') = true := fun c hc => by
    simpa using (hurl c hc).1
  have hauto := autolink_none_image alt url (fun c hc => (halt c hc).2.2)
    (fun c hc => (hurl c hc).2.2)
  have href : scanAll refLinkMatch (imageDoc alt url) = [] :=
    scanAll_none _ _ (fun p t ht =>
      refLinkMatch_none_image alt url halt2 (fun c hc => (halt c hc).2.1)
        (fun c hc => (hurl c hc).2.1) p t ht)
  have hrwref : scanAll rwRefMatch (imageDoc alt url) = [] :=
    scanAll_none _ _ (fun p t ht =>
      rwRefMatch_none_image alt url halt2 (fun c hc => (halt c hc).2.1)
        (fun c hc => (hurl c hc).2.1) p t ht)
  have hne : imageDoc alt url ≠ [] := by simp [imageDoc]
  have hlen : (imageDoc alt url).length = (1 + alt.length + 2 + url.length + 1) + 1 := by
    simp only [imageDoc, List.length_cons, List.length_append, List.length_nil]
    omega
  have hinlScan : scanAll inlineLinkMatch (imageDoc alt url) =
      [(0, (imageDoc alt url).length, (true, alt, url))] := by
    apply scanAll_single inlineLinkMatch (imageDoc alt url) (true, alt, url) hne
    rw [hlen]
    exact inlineLinkMatch_image alt url halt2 hurl0 hurl2
  have hrwinlScan : scanAll rwInlineMatch (imageDoc alt url) =
      [(0, (imageDoc alt url).length, true)] := by
    apply scanAll_single rwInlineMatch (imageDoc alt url) true hne
    rw [hlen]
    exact rwInlineMatch_image alt url halt2 hurl0 hurl2 none
  constructor
  · simp only [extractMarkdownLinks, hinlScan, hauto.1, href]
    simp [inlineStep]
  · have hhits : rwHits (imageDoc alt url) = [] := by
      simp only [rwHits, hrwinlScan, hauto.2, hrwref]
      simp [rwInlineKeep]
    exact replace_eq_of_no_hits _ hhits

/-- Witness for the amended C7 at the spec's own example image. -/
theorem plain_image_inert_witness :
    (∀ c ∈ ("alt").data, c ≠ ']' ∧ c ≠ '[' ∧ c ≠ '<') ∧
      ("https://a.test/img.png").data ≠ [] ∧
      (∀ c ∈ ("https://a.test/img.png").data, c ≠ ')' ∧ c ≠ '[' ∧ c ≠ '<') ∧
      extractMarkdownLinks (imageDoc (("alt").data) (("https://a.test/img.png").data)) = [] ∧
      replaceMarkdownLinksWithOrder
          (imageDoc (("alt").data) (("https://a.test/img.png").data)) =
        imageDoc (("alt").data) (("https://a.test/img.png").data) := by
  refine ⟨by decide, by decide, by decide, ?_, ?_⟩
  · exact (plain_image_inert (("alt").data) (("https://a.test/img.png").data)
      (by decide) (by decide) (by decide)).1
  · exact (plain_image_inert (("alt").data) (("https://a.test/img.png").data)
      (by decide) (by decide) (by decide)).2
